import Mathlib

/-!
Verification development for the `multipart/form-data` decoder in
`deep-modeling/api/multipart.py`.

The Python source is shallowly embedded: byte strings become `List Nat`
(one `Nat` per byte value), decoded `latin1` text also becomes `List Nat`
(one `Nat` per code point; `latin1` maps byte `b` to code point `b`, so the
decode step is the identity on the list), file-like body sinks become an
inductive `Sink` with explicit content and read position, and Python
exceptions become `Except MError`.  Generator-based loops are materialised
as recursive functions over the list of produced items; the two loops whose
recursion is not structural on their input (`_lineiter`'s chunk loop and
the regex scan) take an explicit fuel argument that is instantiated large
enough (`length + constant`) to never run out, so that every definition
reduces in the kernel.
-/

namespace Multipart

/-- Byte strings (and latin1-decoded text) as lists of byte / code point values. -/
abbrev Bytes := List Nat

/-- Bytes of a Lean string literal, one entry per character code.  Used to
write concrete test data; for ASCII/latin1 data this matches the Python
byte string of the same characters. -/
def strBytes (s : String) : Bytes := s.data.map Char.toNat

/-- Python `str` whitespace inside the latin1 range (`str.strip` / regex `\s`):
TAB LF VT FF CR FS GS RS US SPACE NEL NBSP. -/
def isSpace (c : Nat) : Bool :=
  c = 9 ∨ c = 10 ∨ c = 11 ∨ c = 12 ∨ c = 13 ∨ c = 28 ∨ c = 29 ∨ c = 30 ∨
  c = 31 ∨ c = 32 ∨ c = 133 ∨ c = 160

/-- Python `str.strip()` restricted to the latin1 range. -/
def pyStrip (s : Bytes) : Bytes :=
  ((s.dropWhile isSpace).reverse.dropWhile isSpace).reverse

/-- Python `str.lower()` restricted to the latin1 range: ASCII `A`-`Z` and
latin1 `À`-`Þ` (except `×`) shift by 32; other code points are unchanged. -/
def pyLowerChar (c : Nat) : Nat :=
  if 65 ≤ c ∧ c ≤ 90 then c + 32
  else if 192 ≤ c ∧ c ≤ 222 ∧ c ≠ 215 then c + 32
  else c

/-- Python `str.lower()` on a code point list. -/
def pyLower (s : Bytes) : Bytes := s.map pyLowerChar

/-- Errors of the embedded program.  `MultipartError` messages get one
constructor each; `indexError`, `valueError`, `attrError`, `ioError` model
the corresponding Python built-in exceptions; `noFuel` is the out-of-fuel
marker of the fueled loops (unreachable for the fuel values used). -/
inductive MError where
  | boundaryFit
  | noBoundaryStart
  | unexpectedEnd
  | memLimit
  | diskLimit
  | headerEol
  | headerNoColon
  | missingDisposition
  | sizeExceeded
  | indexError
  | valueError
  | attrError
  | ioError
  | noFuel
deriving DecidableEq, Repr

/-! ## Header option grammar

`_re_option = (?:;|^)\s*([^S]+)\s*=\s*((?:[^S]+|"(?:\\.|[^"])*"))` where `S`
is the special set `()<>@,;:\"/[]?={} \t`.  The backtracking search of
Python `re` is embedded directly: greedy pieces enumerate their candidate
lengths in decreasing order, alternatives are tried left to right, and
`finditer` scans start positions left to right, resuming after each match. -/

/-- Membership in `_special` = `re.escape('()<>@,;:\\"/[]?={} \t')`. -/
def isSpecial (c : Nat) : Bool :=
  c = 40 ∨ c = 41 ∨ c = 60 ∨ c = 62 ∨ c = 64 ∨ c = 44 ∨ c = 59 ∨ c = 58 ∨
  c = 92 ∨ c = 34 ∨ c = 47 ∨ c = 91 ∨ c = 93 ∨ c = 63 ∨ c = 61 ∨
  c = 123 ∨ c = 125 ∨ c = 32 ∨ c = 9

/-- Length of the maximal prefix whose elements satisfy `p`
(the span a greedy `p*` consumes). -/
def runLen (p : Nat → Bool) : Bytes → Nat
  | [] => 0
  | c :: r => if p c then runLen p r + 1 else 0

/-- Backtracking helper: try candidate values `n, n-1, …, 0` in order and
return the first success (greedy `*` piece). -/
def tryCands {α : Type} (f : Nat → Option α) : Nat → Option α
  | 0 => f 0
  | n + 1 => (f (n + 1)) <|> tryCands f n

/-- Backtracking helper: try candidate values `n, n-1, …, 1` in order
(greedy `+` piece, at least one repetition). -/
def tryCands1 {α : Type} (f : Nat → Option α) : Nat → Option α
  | 0 => none
  | n + 1 => (f (n + 1)) <|> tryCands1 f n

/-- Matches `(?:\\.|[^"])*"` at the head of the list and returns the number
of consumed elements (closing quote included).  The greedy star prefers
another body repetition (escape first, then plain non-quote) over the
closing quote, exactly like the backtracking engine. -/
def qtail : Bytes → Option Nat
  | [] => none
  | c :: rest =>
    (if c = 92 then
       match rest with
       | d :: rest2 => if d ≠ 10 then (qtail rest2).map (· + 2) else none
       | [] => none
     else none) <|>
    (if c ≠ 34 then (qtail rest).map (· + 1) else none) <|>
    (if c = 34 then some 1 else none)

/-- Matches the value part `(?:[^S]+|"(?:\\.|[^"])*")` at the head of `t`:
first alternative a nonempty run of non-special characters (greedy, nothing
follows it in the pattern, so the maximal run), otherwise a quoted string. -/
def matchValue (t : Bytes) : Option Bytes :=
  let v := runLen (fun c => ¬ isSpecial c) t
  if v > 0 then some (t.take v)
  else
    match t with
    | c :: r => if c = 34 then (qtail r).map (fun q => t.take (q + 1)) else none
    | [] => none

/-- One match of `_re_option`: captured key (group 1), captured value
(group 2) and the number of characters consumed after the `(?:;|^)` prefix. -/
structure OptMatch where
  key : Bytes
  value : Bytes
  len : Nat
deriving DecidableEq, Repr

/-- Matches `\s*([^S]+)\s*=\s*(value)` at the head of `t`, with the full
backtracking order of the Python engine: each greedy `\s*` tries its
longest expansion first, the `[^S]+` key likewise (at least one character). -/
def tryFrom (t : Bytes) : Option OptMatch :=
  tryCands (fun d =>
    let t1 := t.drop d
    tryCands1 (fun e =>
      let key := t1.take e
      let t2 := t1.drop e
      tryCands (fun d2 =>
        match t2.drop d2 with
        | 61 :: t4 =>
          tryCands (fun d3 =>
            (matchValue (t4.drop d3)).map (fun v =>
              { key := key, value := v, len := d + e + d2 + 1 + d3 + v.length }))
            (runLen isSpace t4)
        | _ => none)
        (runLen isSpace t2))
      (runLen (fun c => ¬ isSpecial c) t1))
    (runLen isSpace t)

/-- Tries `_re_option` at absolute position `i` of `s`; on success returns
the match and its absolute end position.  The prefix `(?:;|^)` first tries
to consume a `;`, then falls back to the `^` assertion (position 0). -/
def matchAt (s : Bytes) (i : Nat) : Option (OptMatch × Nat) :=
  (match s.drop i with
   | 59 :: t => (tryFrom t).map (fun m => (m, i + 1 + m.len))
   | _ => none) <|>
  (if i = 0 then (tryFrom (s.drop i)).map (fun m => (m, i + m.len)) else none)

/-- `re.finditer` scan: try each start position left to right, resume after
the end of each (always nonempty) match.  `fuel` bounds the number of scan
steps; the caller passes `s.length + 1`, enough because the position grows
by at least one at every step. -/
def finditerAux (s : Bytes) : Nat → Nat → List OptMatch
  | 0, _ => []
  | fuel + 1, i =>
    match matchAt s i with
    | some (m, e) => m :: finditerAux s fuel e
    | none => if i < s.length then finditerAux s fuel (i + 1) else []

/-- All matches of `_re_option` in `s`, in scan order. -/
def finditerOpts (s : Bytes) : List OptMatch := finditerAux s (s.length + 1) 0

/-- `header_unquote(val, filename=False)`.  `val[0]`/`val[-1]` on an empty
string raises `IndexError`, hence the `Except`.  The `filename` parameter
is accepted and, as in the source, never used. -/
def header_unquote (val : Bytes) (fname : Bool) : Except MError Bytes :=
  match val with
  | [] => .error .indexError
  | _ =>
    if val.head? = some 34 ∧ val.getLast? = some 34 then
      let v := (val.drop 1).dropLast
      let v :=
        if (v.drop 1).take 2 = [58, 92] ∨ v.take 2 = [92, 92] then
          (splitBackslash v).getLastD []
        else v
      .ok (replaceBsQuote (replaceBsBs v))
    else .ok val
where
  /-- `val.split('\\')` (Python `str.split` keeps empty pieces). -/
  splitBackslash : Bytes → List Bytes
    | [] => [[]]
    | 92 :: rest => [] :: splitBackslash rest
    | c :: rest =>
      match splitBackslash rest with
      | [] => [[c]]
      | p :: ps => (c :: p) :: ps
  /-- `.replace('\\\\', '\\')`: left-to-right replacement of `\\` by `\`. -/
  replaceBsBs : Bytes → Bytes
    | 92 :: 92 :: rest => 92 :: replaceBsBs rest
    | c :: rest => c :: replaceBsBs rest
    | [] => []
  /-- `.replace('\\"', '"')`: left-to-right replacement of `\"` by `"`. -/
  replaceBsQuote : Bytes → Bytes
    | 92 :: 34 :: rest => 34 :: replaceBsQuote rest
    | c :: rest => c :: replaceBsQuote rest
    | [] => []

/-- Insert-or-overwrite into an ordered association list
(Python `dict.__setitem__`). -/
def dictSet (d : List (Bytes × Bytes)) (k v : Bytes) : List (Bytes × Bytes) :=
  match d with
  | [] => [(k, v)]
  | (k', v') :: rest => if k' = k then (k, v) :: rest else (k', v') :: dictSet rest k v

/-- First value stored under `k` (Python `dict.get`). -/
def dictGet (d : List (Bytes × Bytes)) (k : Bytes) : Option Bytes :=
  (d.find? (fun kv => kv.1 = k)).map (·.2)

/-- The loop body of `parse_options_header`: lower-case the key, unquote
the value (passing `key == 'filename'`), store under the key. -/
def optsStep (acc : List (Bytes × Bytes)) (m : OptMatch) :
    Except MError (List (Bytes × Bytes)) := do
  let key := pyLower m.key
  let value ← header_unquote m.value (key = strBytes "filename")
  pure (dictSet acc key value)

/-- `parse_options_header(header)`.  Splits at the first `;` (quoted or
not), then records each regex match of the tail with lower-cased key and
unquoted value.  The `Except` propagates the (never reached) `IndexError`
of `header_unquote` on an empty match value. -/
def parse_options_header (header : Bytes) :
    Except MError (Bytes × List (Bytes × Bytes)) := do
  if 59 ∈ header then
    let ctype := header.takeWhile (fun c => c ≠ 59)
    let tail := (header.dropWhile (fun c => c ≠ 59)).drop 1
    let opts ← (finditerOpts tail).foldlM optsStep []
    pure (ctype, opts)
  else
    pure (pyStrip (pyLower header), [])

/-- Modelled from the spec: "split on the first unquoted `;`" — the
primary token of the claimed split, scanning left to right with double
quotes toggling an in-quotes state and the split at the first `;` seen
outside quotes. -/
def specUnquotedPrimary (s : Bytes) (inQ : Bool) : Bytes :=
  match s with
  | [] => []
  | 34 :: r => 34 :: specUnquotedPrimary r (!inQ)
  | 59 :: r => if inQ then 59 :: specUnquotedPrimary r inQ else []
  | c :: r => c :: specUnquotedPrimary r inQ

/-! ## Body sinks and `copy_file` -/

/-- The body sink of a part: Python `self.file`, which is `False` until the
headers finish, then a `BytesIO`, then possibly a `TemporaryFile`.  Content
and read/write position are explicit. -/
inductive Sink where
  | off                                   -- `self.file = False`
  | mem (content : Bytes) (pos : Nat)     -- `BytesIO`
  | disk (content : Bytes) (pos : Nat)    -- `TemporaryFile`
deriving DecidableEq, Repr

namespace Sink

/-- `file.write(data)`: overwrite at the current position (in all reachable
states the position is at the end, so this appends).  Unreachable for
`off` (`feed` routes that case to the header handler). -/
def write (s : Sink) (data : Bytes) : Sink :=
  match s with
  | off => off
  | mem c pos => mem (c.take pos ++ data ++ c.drop (pos + data.length)) (pos + data.length)
  | disk c pos => disk (c.take pos ++ data ++ c.drop (pos + data.length)) (pos + data.length)

/-- `file.seek(n)`. -/
def seek (s : Sink) (n : Nat) : Sink :=
  match s with
  | off => off
  | mem c _ => mem c n
  | disk c _ => disk c n

/-- `file.tell()` (0 for `off`, unreachable: `False.tell()` would raise). -/
def tell : Sink → Nat
  | off => 0
  | mem _ pos => pos
  | disk _ pos => pos

/-- `file.read()`: everything from the current position; the position moves
to the end. -/
def readAll : Sink → Bytes × Sink
  | off => ([], off)
  | mem c pos => (c.drop pos, mem c c.length)
  | disk c pos => (c.drop pos, disk c c.length)

/-- The stored bytes, regardless of position. -/
def contentOf : Sink → Bytes
  | off => []
  | mem c _ => c
  | disk c _ => c

/-- `isinstance(self.file, BytesIO)`. -/
def isMem : Sink → Bool
  | mem _ _ => true
  | _ => false

end Sink

/-- `copy_file(stream, target, maxread, buffer_size)`: reads chunks of at
most `buffer_size` (bounded by the remaining `maxread` budget when that is
nonnegative) and returns the bytes written to the target.  `stream` is the
source's remaining content, `size` the byte count copied so far.  Every
loop iteration consumes at least one source byte, so any
`fuel > stream.length` behaves like the unbounded loop. -/
def copy_file (fuel : Nat) (stream : Bytes) (maxread : Int) (buffer_size : Nat)
    (size : Nat) : Bytes :=
  match fuel with
  | 0 => []
  | fuel + 1 =>
    let to_read : Nat := if maxread < 0 then buffer_size else min buffer_size (maxread - size).toNat
    let piece := stream.take to_read
    if piece = [] then []
    else piece ++ copy_file fuel (stream.drop to_read) maxread buffer_size (size + piece.length)

/-- The in-memory-to-disk promotion of `write_body`: a fresh temporary
file, `old.seek(0)`, then `copy_file(old, new, size, buffer_size)`. -/
def spillSink (s : Sink) (size : Nat) (buffer_size : Nat) : Sink :=
  match s with
  | .mem c _ => let copied := copy_file (c.length + 1) c size buffer_size 0
                .disk copied copied.length
  | other => other    -- unreachable: guarded by `isinstance(self.file, BytesIO)`

/-! ## `int()` and header lookup -/

/-- Whether the list contains two adjacent underscores. -/
def hasDoubleUnderscore : Bytes → Bool
  | 95 :: 95 :: _ => true
  | _ :: rest => hasDoubleUnderscore rest
  | [] => false

/-- Decimal value of a digit list. -/
def digitsToNat (s : Bytes) : Nat := s.foldl (fun a c => a * 10 + (c - 48)) 0

/-- Python `int(str)` (ASCII digits; single underscores between digits
allowed; surrounding whitespace stripped; `ValueError` otherwise). -/
def pyInt (s : Bytes) : Except MError Int :=
  let t := pyStrip s
  let (sign, u) : Int × Bytes :=
    match t with
    | 45 :: r => (-1, r)
    | 43 :: r => (1, r)
    | r => (1, r)
  if u = [] then .error .valueError
  else if u.head? = some 95 ∨ u.getLast? = some 95 ∨ hasDoubleUnderscore u then
    .error .valueError
  else
    let v := u.filter (fun c => c ≠ 95)
    if v.all (fun c => 48 ≤ c ∧ c ≤ 57) then .ok (sign * digitsToNat v)
    else .error .valueError

/-- `wsgiref.headers.Headers.get`: first case-insensitively matching
header value. -/
def headersGet (hs : List (Bytes × Bytes)) (name : Bytes) : Option Bytes :=
  let n := pyLower name
  (hs.find? (fun kv => pyLower kv.1 = n)).map (·.2)

/-! ## `MultipartPart` -/

/-- `MultipartPart`.  Attributes that Python only creates in
`finish_header` (`options`, `content_length`) are `Option`s that start out
`none`; reading them before they exist models as an `AttributeError`. -/
structure Part where
  headerlist : List (Bytes × Bytes)
  file : Sink
  size : Nat
  buf : Bytes                              -- `self._buf`
  disposition : Option Bytes
  name : Option Bytes
  filename : Option Bytes
  content_type : Option Bytes
  options : Option (List (Bytes × Bytes))
  charset : Bytes
  content_length : Option Int
  memfile_limit : Nat
  buffer_size : Nat
deriving Repr

/-- `MultipartPart.__init__(buffer_size, memfile_limit, charset)`. -/
def Part.init (buffer_size memfile_limit : Nat) (charset : Bytes) : Part where
  headerlist := []
  file := .off
  size := 0
  buf := []
  disposition := none
  name := none
  filename := none
  content_type := none
  options := none
  charset := charset
  content_length := none
  memfile_limit := memfile_limit
  buffer_size := buffer_size

/-- `line.decode(self.charset or 'latin1')`.  The development fixes the
charset to `latin1` (the default; no configuration in any claim changes
it), under which decoding maps each byte to the equal code point, i.e. is
the identity on the list. -/
def decodeCharset (charset : Bytes) (line : Bytes) : Bytes :=
  let _ := if charset = [] then strBytes "latin1" else charset
  line

/-- `MultipartPart.finish_header`. -/
def Part.finish_header (p : Part) : Except MError Part := do
  let file := Sink.mem [] 0
  let cdis := (headersGet p.headerlist (strBytes "Content-Disposition")).getD []
  let ctype := (headersGet p.headerlist (strBytes "Content-Type")).getD []
  if cdis = [] then
    .error .missingDisposition
  else
    let (disposition, options) ← parse_options_header cdis
    let name := dictGet options (strBytes "name")
    let filename := dictGet options (strBytes "filename")
    let (content_type, options2) ← parse_options_header ctype
    let charset :=
      match dictGet options2 (strBytes "charset") with
      | some c => if c = [] then p.charset else c         -- `… or self.charset`
      | none => p.charset
    let clen ← pyInt ((headersGet p.headerlist (strBytes "Content-Length")).getD (strBytes "-1"))
    pure { p with
      file := file
      disposition := some disposition
      options := some options
      name := name
      filename := filename
      content_type := some content_type
      charset := charset
      content_length := some clen }

/-- `MultipartPart.write_header(line, nl)`. -/
def Part.write_header (p : Part) (line nl : Bytes) : Except MError Part :=
  let line := decodeCharset p.charset line
  if nl = [] then .error .headerEol
  else if pyStrip line = [] then p.finish_header
  else if (line.head? = some 32 ∨ line.head? = some 9) ∧ p.headerlist ≠ [] then
    match p.headerlist.getLast? with
    | some (n, v) => .ok { p with headerlist := p.headerlist.dropLast ++ [(n, v ++ pyStrip line)] }
    | none => .ok p   -- unreachable: headerlist ≠ []
  else if ¬ 58 ∈ line then .error .headerNoColon
  else
    let n := line.takeWhile (fun c => c ≠ 58)
    let v := (line.dropWhile (fun c => c ≠ 58)).drop 1
    .ok { p with headerlist := p.headerlist ++ [(pyStrip n, pyStrip v)] }

/-- `MultipartPart.write_body(line, nl)`. -/
def Part.write_body (p : Part) (line nl : Bytes) : Except MError Part :=
  if line = [] ∧ nl = [] then .ok p
  else
    let size := p.size + line.length + p.buf.length
    let file := p.file.write (p.buf ++ line)
    match p.content_length with
    | none => .error .attrError   -- unreachable: `self.file` truthy forces `finish_header` ran
    | some cl =>
      if 0 < cl ∧ cl < (size : Int) then .error .sizeExceeded
      else if p.memfile_limit < size ∧ file.isMem then
        .ok { p with size := size, file := spillSink file size p.buffer_size, buf := nl }
      else
        .ok { p with size := size, file := file, buf := nl }

/-- `MultipartPart.feed(line, nl)`: dispatch on the truthiness of
`self.file`. -/
def Part.feed (p : Part) (line nl : Bytes) : Except MError Part :=
  match p.file with
  | .off => p.write_header line nl
  | _ => p.write_body line nl

/-- `MultipartPart.is_buffered()`. -/
def Part.is_buffered (p : Part) : Bool := p.file.isMem

/-- `MultipartPart.raw`: remember the position, rewind, read everything,
and restore the position in a `finally`.  `failRead` injects the `IOError`
that the source's `try` re-raises, to model the error path as well. -/
def Part.raw (failRead : Bool) (p : Part) : Except MError Bytes × Part :=
  match p.file with
  | .off => (.error .attrError, p)   -- `False.tell()`: unreachable for sealed parts
  | f =>
    let pos := f.tell
    let f1 := f.seek 0
    let (res, f2) : Except MError Bytes × Sink :=
      if failRead then (.error .ioError, f1)
      else
        let (v, f3) := f1.readAll
        (.ok v, f3)
    (res, { p with file := f2.seek pos })

/-! ## Line reader (`MultipartParser._lineiter`) -/

/-- `bytes.splitlines(keepends=True)`: split at `\r\n`, lone `\r` and lone
`\n`, keeping the terminators; a trailing piece without terminator is kept;
the empty string gives no lines.  `acc` holds the current line's content so
far, reversed. -/
def splitlinesAux : Bytes → Bytes → List Bytes
  | acc, [] => if acc = [] then [] else [acc.reverse]
  | acc, 13 :: 10 :: rest => (acc.reverse ++ [13, 10]) :: splitlinesAux [] rest
  | acc, 13 :: rest => (acc.reverse ++ [13]) :: splitlinesAux [] rest
  | acc, 10 :: rest => (acc.reverse ++ [10]) :: splitlinesAux [] rest
  | acc, c :: rest => splitlinesAux (c :: acc) rest

/-- `(buffer + data).splitlines(True)`. -/
def splitlines (b : Bytes) : List Bytes := splitlinesAux [] b

/-- The `lines[:1] = [lines[0][:splitpos], lines[0][splitpos:]]` step: if
the first line exceeds `buffer_size` it is force-split at `buffer_size`,
or at `buffer_size - 1` when the line is exactly `buffer_size + 1` bytes
long and ends in `\r\n`. -/
def forceSplitFirst (buffer_size : Nat) (lines : List Bytes) : List Bytes :=
  match lines with
  | [] => []
  | l0 :: rest =>
    if buffer_size < l0.length then
      let splitpos :=
        if l0.length = buffer_size + 1 ∧ [13, 10] <:+ l0 then buffer_size - 1
        else buffer_size
      l0.take splitpos :: l0.drop splitpos :: rest
    else l0 :: rest

/-- Terminator classification of one physical line:
`\r\n`, then `\n`, then `\r`, else no terminator. -/
def classifyLine (line : Bytes) : Bytes × Bytes :=
  if [13, 10] <:+ line then (line.take (line.length - 2), [13, 10])
  else if [10] <:+ line then (line.take (line.length - 1), [10])
  else if [13] <:+ line then (line.take (line.length - 1), [13])
  else (line, [])

/-- The chunk loop of `_lineiter`.  `stream` is the unread input, `maxread`
the remaining `content_length` budget (negative = unbounded), `buffer` the
pending partial line.  `lines[0]` on an empty chunk list is Python's
`IndexError` (reachable only when the very first read returns nothing).
Each iteration with nonempty data consumes at least one stream byte, so
any `fuel > stream.length + 1` behaves like the unbounded loop. -/
def lineiterAux (buffer_size : Nat) :
    Nat → Bytes → Int → Bytes → Except MError (List (Bytes × Bytes))
  | 0, _, _, _ => .error .noFuel
  | fuel + 1, stream, maxread, buffer =>
    let n : Nat := if maxread < 0 then buffer_size else min buffer_size maxread.toNat
    let data := stream.take n
    let maxread' := maxread - data.length
    match splitlines (buffer ++ data) with
    | [] => .error .indexError
    | l0 :: restLines =>
      let lines := forceSplitFirst buffer_size (l0 :: restLines)
      if data = [] then .ok (lines.map classifyLine)
      else do
        let more ← lineiterAux buffer_size fuel (stream.drop n) maxread' (lines.getLastD [])
        pure (lines.dropLast.map classifyLine ++ more)

/-- `MultipartParser._lineiter()`: the full `(content, terminator)`
sequence. -/
def lineiter (buffer_size : Nat) (content_length : Int) (stream : Bytes) :
    Except MError (List (Bytes × Bytes)) :=
  lineiterAux buffer_size (stream.length + 2) stream content_length []

/-! ## Stream parser (`MultipartParser`) -/

/-- Parser configuration after the constructor's clamping. -/
structure Config where
  boundary : Bytes
  content_length : Int
  disk_limit : Nat
  mem_limit : Nat
  memfile_limit : Nat
  buffer_size : Nat
  charset : Bytes
deriving Repr

/-- `MultipartParser.__init__`: clamp `mem_limit` by `disk_limit` and
`buffer_size` by `mem_limit`, then require room in the buffer for
`--boundary--\r\n`. -/
def mkConfig (boundary : Bytes) (content_length : Int) (disk_limit mem_limit : Nat)
    (memfile_limit buffer_size : Nat) (charset : Bytes) : Except MError Config :=
  let mem_limit := min mem_limit disk_limit
  let buffer_size := min buffer_size mem_limit
  if (buffer_size : Int) - 6 < boundary.length then .error .boundaryFit
  else .ok {
    boundary := boundary
    content_length := content_length
    disk_limit := disk_limit
    mem_limit := mem_limit
    memfile_limit := memfile_limit
    buffer_size := buffer_size
    charset := charset }

/-- `MultipartParser(stream, boundary)` with all keyword defaults
(`disk_limit 2^30, mem_limit 2^20, memfile_limit 2^18, buffer_size 2^16,
charset latin1, content_length -1`). -/
def defaultConfig (boundary : Bytes) : Except MError Config :=
  mkConfig boundary (-1) (2 ^ 30) (2 ^ 20) (2 ^ 18) (2 ^ 16) (strBytes "latin1")

/-- `'--' + boundary`. -/
def separatorOf (cfg : Config) : Bytes := [45, 45] ++ cfg.boundary

/-- `'--' + boundary + '--'`. -/
def terminatorOf (cfg : Config) : Bytes := [45, 45] ++ cfg.boundary ++ [45, 45]

/-- A fresh part with this parser's options
(`MultipartPart(**opts)` in `_iterparse`). -/
def freshPart (cfg : Config) : Part :=
  Part.init cfg.buffer_size cfg.memfile_limit cfg.charset

/-- The `for line, nl in lines: if line: break` prologue of `_iterparse`:
returns the value of `line` after the loop (initially `''`) and the lines
the loop did not consume. -/
def scanFirstBoundary : List (Bytes × Bytes) → Bytes × List (Bytes × Bytes)
  | [] => ([], [])
  | (l, _) :: rest =>
    if l ≠ [] then (l, rest)
    else
      match rest with
      | [] => (l, [])
      | _ => scanFirstBoundary rest

/-- Mutable state of the `_iterparse` main loop. -/
structure LoopSt where
  mem_used : Nat
  disk_used : Nat
  is_tail : Bool
  part : Part

/-- `part.file.seek(0)` before a part is yielded. -/
def sealPart (p : Part) : Except MError Part :=
  match p.file with
  | .off => .error .attrError   -- `False.seek`: part yielded before any body line
  | f => .ok { p with file := f.seek 0 }

/-- The main `for line, nl in lines` loop of `_iterparse`: returns the
yielded parts and the final value of the `line` variable (for the
`if line != terminator` check after the loop).  `prev` is the current
value of `line` entering the loop. -/
def iterLoop (cfg : Config) (st : LoopSt) (prev : Bytes) :
    List (Bytes × Bytes) → Except MError (List Part × Bytes)
  | [] => .ok ([], prev)
  | (line, nl) :: rest =>
    if line = terminatorOf cfg ∧ st.is_tail = false then do
      let sealed ← sealPart st.part
      pure ([sealed], line)                         -- yield, then break
    else if line = separatorOf cfg ∧ st.is_tail = false then do
      let mem_used := if st.part.is_buffered then st.mem_used + st.part.size else st.mem_used
      let disk_used := if st.part.is_buffered then st.disk_used else st.disk_used + st.part.size
      let sealed ← sealPart st.part
      let st' : LoopSt :=
        { mem_used := mem_used, disk_used := disk_used, is_tail := st.is_tail,
          part := freshPart cfg }
      let (parts, final) ← iterLoop cfg st' line rest
      pure (sealed :: parts, final)
    else do
      let is_tail := nl = []                         -- `is_tail = not nl`
      let part ← st.part.feed line nl
      if part.is_buffered then
        if cfg.mem_limit < part.size + st.mem_used then .error .memLimit
        else iterLoop cfg { st with is_tail := is_tail, part := part } line rest
      else if cfg.disk_limit < part.size + st.disk_used then .error .diskLimit
      else iterLoop cfg { st with is_tail := is_tail, part := part } line rest

/-- `MultipartParser._iterparse()` run to completion: the sequence of
yielded parts, or the first raised error. -/
def iterparse (cfg : Config) (stream : Bytes) : Except MError (List Part) := do
  let lines ← lineiter cfg.buffer_size cfg.content_length stream
  let (line, rest) := scanFirstBoundary lines
  if line ≠ separatorOf cfg then .error .noBoundaryStart
  else
    let st0 : LoopSt :=
      { mem_used := 0, disk_used := 0, is_tail := false, part := freshPart cfg }
    let (parts, final) ← iterLoop cfg st0 line rest
    if final ≠ terminatorOf cfg then .error .unexpectedEnd
    else pure parts

/-! ## Parser object and `__iter__` (cached re-iteration) -/

/-- A `MultipartParser` instance: the cache `self._done`, the generator
`self._part_iter` (`none` = not created yet; `some remaining` = created,
with `remaining` still to be yielded), and a counter of how many passes
have consumed the underlying stream. -/
structure ParserObj where
  cfg : Config
  stream : Bytes
  done : List Part
  part_iter : Option (List Part)
  streamPasses : Nat

/-- A freshly constructed parser object. -/
def ParserObj.start (cfg : Config) (stream : Bytes) : ParserObj :=
  { cfg := cfg, stream := stream, done := [], part_iter := none, streamPasses := 0 }

/-- One full run of `__iter__`: create `self._part_iter` if absent (the
only place the byte stream is ever consumed), yield the cached parts, then
drain the generator, appending each yielded part to the cache. -/
def ParserObj.iterate (p : ParserObj) : Except MError (List Part × ParserObj) :=
  match p.part_iter with
  | none => do
    let parts ← iterparse p.cfg p.stream
    pure (p.done ++ parts,
      { p with done := p.done ++ parts, part_iter := some [],
               streamPasses := p.streamPasses + 1 })
  | some remaining =>
    .ok (p.done ++ remaining, { p with done := p.done ++ remaining, part_iter := some [] })

/-! ## Concrete inputs used by the theorems below -/

/-- The byte stream of the specification's scenario:
`--B\r\nContent-Disposition: form-data; name="a"\r\n\r\nhello\r\n--B--\r\n`. -/
def streamScenario : Bytes :=
  strBytes "--B\r\nContent-Disposition: form-data; name=\"a\"\r\n\r\nhello\r\n--B--\r\n"

/-- The configuration of `MultipartParser(stream, 'B')` with all defaults,
i.e. the value `defaultConfig (strBytes "B")` produces. -/
def cfgB : Config :=
  { boundary := [66], content_length := -1, disk_limit := 2 ^ 30, mem_limit := 2 ^ 20,
    memfile_limit := 2 ^ 18, buffer_size := 2 ^ 16, charset := strBytes "latin1" }

/-- A stream whose final physical line is longer than `buffer_size = 48`
and whose force-split tail happens to equal the terminator line
`--B--` exactly at the end of input. -/
def streamSplitTail : Bytes :=
  strBytes "--B\r\nContent-Disposition: form-data; name=\"a\"\r\n\r\n" ++
  List.replicate 48 88 ++ strBytes "--B--"

/-- The parts of the scenario stream, as computed by the parser. -/
def psScenario : List Part := ((iterparse cfgB streamScenario).toOption).getD []

/-- A part in body state used to instantiate hypotheses of the part-level
theorems: in-memory sink `he` at position 2, size 2, no pending
terminator. -/
def partW : Part :=
  { Part.init 16 4 (strBytes "latin1") with
    file := .mem [104, 101] 2, size := 2, content_length := some (-1),
    headerlist := [(strBytes "Content-Disposition", strBytes "form-data")] }

/-- A small configuration with `mem_limit = 4`, used to exercise the
per-line limit check. -/
def cfgW4 : Config :=
  { boundary := [66], content_length := -1, disk_limit := 100, mem_limit := 4,
    memfile_limit := 50, buffer_size := 10, charset := strBytes "latin1" }

/-- Loop state for the C4 witness: a fresh part already past its headers
(in-memory sink), no resources used yet. -/
def stW4 : LoopSt :=
  { mem_used := 0, disk_used := 0, is_tail := false,
    part := { Part.init 10 50 (strBytes "latin1") with
              file := .mem [] 0, content_length := some (-1) } }

/-- The part state after feeding the line `world` in the C4 witness. -/
def partW4 : Part :=
  { Part.init 10 50 (strBytes "latin1") with
    file := .mem (strBytes "world") 5, size := 5, buf := [13, 10],
    content_length := some (-1) }

/-! ## Theorems -/

/-- With a positive byte budget `m` covering the whole source, `copy_file`
copies the source exactly (chunking is invisible in the result). -/
theorem copy_file_all (fuel : Nat) : ∀ (src : Bytes) (m : Int) (bs sz : Nat),
    0 < bs → (src.length + sz : Int) ≤ m → src.length < fuel →
    copy_file fuel src m bs sz = src := by
  induction fuel with
  | zero => intro src m bs sz _ _ h; omega
  | succ fuel ih =>
    intro src m bs sz hbs hm _
    have hm0 : ¬ m < 0 := by
      have : (0 : Int) ≤ src.length + sz := by positivity
      omega
    rcases src with _ | ⟨a, l⟩
    · simp [copy_file]
    · have hlen : (a :: l).length ≤ (m - sz).toNat := by
        have := Int.toNat_of_nonneg (a := m - sz) (by omega)
        omega
      have hto : 0 < min bs (m - sz).toNat := by
        have : 0 < (a :: l).length := by simp
        omega
      have hpiece : (a :: l).take (min bs (m - sz).toNat) ≠ [] := by
        intro hcon
        have := congrArg List.length hcon
        simp at this
        omega
      simp only [copy_file, if_neg hm0, if_neg hpiece]
      set n := min bs (m - sz).toNat with hn
      have hrec := ih ((a :: l).drop n) m bs (sz + ((a :: l).take n).length) hbs
        (by
          have h1 : ((a :: l).drop n).length = (a :: l).length - n := by simp
          have h2 : ((a :: l).take n).length = min n (a :: l).length := by simp
          have h3 : (a :: l).length ≤ (m - sz).toNat := hlen
          have h4 := Int.toNat_of_nonneg (a := m - sz) (by omega)
          push_cast
          omega)
        (by
          have h1 : ((a :: l).drop n).length = (a :: l).length - n := by simp
          have h2 : 0 < (a :: l).length := by simp
          omega)
      rw [hrec, List.take_append_drop]

/-- Promoting an in-memory sink whose recorded size equals its content
length yields a disk sink with identical content, positioned at its end. -/
theorem spillSink_mem (c : Bytes) (pos bs : Nat) (hbs : 0 < bs) :
    spillSink (.mem c pos) c.length bs = .disk c c.length := by
  have := copy_file_all (c.length + 1) c c.length bs 0 hbs (by push_cast; omega) (by omega)
  simp [spillSink, this]

/-- Writing at the end of an in-memory sink appends. -/
theorem sink_write_mem (c d : Bytes) :
    Sink.write (.mem c c.length) d = .mem (c ++ d) (c ++ d).length := by
  simp [Sink.write, List.drop_eq_nil_of_le]

/-- Writing at the end of a disk sink appends. -/
theorem sink_write_disk (c d : Bytes) :
    Sink.write (.disk c c.length) d = .disk (c ++ d) (c ++ d).length := by
  simp [Sink.write, List.drop_eq_nil_of_le]

/-- Claim C3: for a part that declares a positive `Content-Length` `N`,
`write_body` raises the body-length format error exactly when the
accumulated size (previous size + pending terminator + new line) exceeds
`N`; on success the new size is that sum and stays `≤ N`.  In particular
the error fires at `N + 1` accumulated bytes, never at `N`. -/
theorem claim3_body_length (p : Part) (line nl : Bytes) (N : Int)
    (hcl : p.content_length = some N) (hN : 0 < N) :
    (p.write_body line nl = .error .sizeExceeded ↔
      ¬(line = [] ∧ nl = []) ∧ N < ((p.size + line.length + p.buf.length : Nat) : Int)) ∧
    (∀ p', p.write_body line nl = .ok p' → ¬(line = [] ∧ nl = []) →
      p'.size = p.size + line.length + p.buf.length ∧ ((p'.size : Nat) : Int) ≤ N) := by
  by_cases hsk : line = [] ∧ nl = []
  · constructor
    · simp [Part.write_body, hsk]
    · intro p' hok hne
      exact absurd hsk hne
  · constructor
    · simp only [Part.write_body, if_neg hsk, hcl]
      split_ifs with h1 h2
      · exact ⟨fun _ => ⟨hsk, h1.2⟩, fun _ => rfl⟩
      all_goals
        constructor
        · intro h
          simp at h
        · intro h
          exact absurd ⟨hN, h.2⟩ h1
    · intro p' hok hne
      revert hok
      simp only [Part.write_body, if_neg hsk, hcl]
      split_ifs with h1 h2 <;> intro hok
      · exact absurd hok (by simp)
      all_goals
        cases hok
        refine ⟨rfl, ?_⟩
        have : ¬ N < ((p.size + line.length + p.buf.length : Nat) : Int) :=
          fun h => h1 ⟨hN, h⟩
        simpa using this

/-- Witness for C3: a part with two body bytes already accumulated and
`Content-Length: 5` accepts three more bytes (size exactly 5) but rejects
four more (size 6). -/
theorem claim3_body_length_witness :
    (({ partW with content_length := some 5 } : Part).write_body [97, 97, 97, 97] [] =
       .error .sizeExceeded) ∧
    ¬ (({ partW with content_length := some 5 } : Part).write_body [97, 97, 97] [] =
       .error .sizeExceeded) := by
  have h := claim3_body_length { partW with content_length := some 5 } [97, 97, 97, 97] [] 5
    rfl (by decide)
  have h' := claim3_body_length { partW with content_length := some 5 } [97, 97, 97] [] 5
    rfl (by decide)
  exact ⟨h.1.mpr (by decide), fun hc => by
    have := h'.1.mp hc
    revert this
    decide⟩

/-- Claim C1: parsing the byte stream
`--B\r\nContent-Disposition: form-data; name="a"\r\n\r\nhello\r\n--B--\r\n`
with boundary token `B` and default configuration yields exactly one
sealed part (read position rewound to 0) whose name is `a` and whose raw
body bytes are exactly `hello` — the final `\r\n` before the terminator
line is not part of the body. -/
theorem claim1_scenario_single_part :
    (do
      let cfg ← defaultConfig (strBytes "B")
      let ps ← iterparse cfg streamScenario
      pure (ps.map (fun (p : Part) => (p.name, (p.raw false).1, p.file.tell))))
    = .ok [(some (strBytes "a"), Except.ok (strBytes "hello"), 0)] := by
  rfl

/-- Claim C7, evaluated at the failing input: with `buffer_size = 48` and
boundary `B`, a stream whose over-long final body line force-splits into a
tail equal to `--B--` is exhausted before any terminator line is
recognized (the tail arrives flagged as a continuation), yet `_iterparse`
completes normally and yields no parts at all — the final part is silently
dropped — instead of raising the unexpected-end-of-stream error that the
claim requires. -/
theorem claim7_exhaustion_without_error :
    (do
      let cfg ← mkConfig (strBytes "B") (-1) (2 ^ 30) (2 ^ 20) (2 ^ 18) 48 (strBytes "latin1")
      iterparse cfg streamSplitTail)
    = .ok ([] : List Part) := by
  rfl

/-- `write_body` on a non-skipped line with the declared-length check
failing: the body-length error. -/
theorem write_body_err (p : Part) (line nl : Bytes) (cl : Int)
    (hcl : p.content_length = some cl) (hsk : ¬(line = [] ∧ nl = []))
    (hyes : 0 < cl ∧ cl < ((p.size + line.length + p.buf.length : Nat) : Int)) :
    p.write_body line nl = .error .sizeExceeded := by
  simp only [Part.write_body, if_neg hsk, hcl, if_pos hyes]

/-- `write_body` on a non-skipped line within the declared length: update
size and sink, spilling exactly when the new size exceeds `memfile_limit`
on an in-memory sink. -/
theorem write_body_eq (p : Part) (line nl : Bytes) (cl : Int)
    (hcl : p.content_length = some cl) (hsk : ¬(line = [] ∧ nl = []))
    (hno : ¬(0 < cl ∧ cl < ((p.size + line.length + p.buf.length : Nat) : Int))) :
    p.write_body line nl =
      (if p.memfile_limit < p.size + line.length + p.buf.length ∧
          (p.file.write (p.buf ++ line)).isMem = true then
        .ok { p with size := p.size + line.length + p.buf.length,
                     file := spillSink (p.file.write (p.buf ++ line))
                               (p.size + line.length + p.buf.length) p.buffer_size,
                     buf := nl }
      else
        .ok { p with size := p.size + line.length + p.buf.length,
                     file := p.file.write (p.buf ++ line), buf := nl }) := by
  simp only [Part.write_body, if_neg hsk, hcl, if_neg hno]

/-- Claim C5: the body sink goes in-memory → disk at most once and never
back.  A disk sink stays a disk sink and just receives the appended bytes;
an in-memory sink is promoted exactly when the accumulated size first
exceeds `memfile_limit` while still in memory, and in either case the sink
afterwards holds exactly the bytes written before plus the bytes written
now.  `c` is the sink content, which in every reachable body state equals
the recorded `size` and the write position. -/
theorem claim5_sink_promotion (p : Part) (line nl c : Bytes)
    (hsz : p.size = c.length) (hbs : 0 < p.buffer_size) :
    (p.file = .disk c c.length → ∀ p', p.write_body line nl = .ok p' →
       ((line = [] ∧ nl = []) → p'.file = .disk c c.length) ∧
       (¬(line = [] ∧ nl = []) →
          p'.file = .disk (c ++ p.buf ++ line) (c ++ p.buf ++ line).length)) ∧
    (p.file = .mem c c.length → ∀ p', p.write_body line nl = .ok p' →
       ((line = [] ∧ nl = []) → p'.file = .mem c c.length) ∧
       (¬(line = [] ∧ nl = []) →
          (p.memfile_limit < p.size + line.length + p.buf.length →
             p'.file = .disk (c ++ p.buf ++ line) (c ++ p.buf ++ line).length) ∧
          (p.size + line.length + p.buf.length ≤ p.memfile_limit →
             p'.file = .mem (c ++ p.buf ++ line) (c ++ p.buf ++ line).length))) := by
  constructor
  · intro hf p' hok
    by_cases hsk : line = [] ∧ nl = []
    · refine ⟨fun _ => ?_, fun hne => absurd hsk hne⟩
      simp only [Part.write_body, if_pos hsk] at hok
      cases hok
      exact hf
    · refine ⟨fun h => absurd h hsk, fun _ => ?_⟩
      rcases hcl : p.content_length with _ | cl
      · simp only [Part.write_body, if_neg hsk, hcl] at hok
        simp at hok
      · by_cases h1 : 0 < cl ∧ cl < ((p.size + line.length + p.buf.length : Nat) : Int)
        · rw [write_body_err p line nl cl hcl hsk h1] at hok
          simp at hok
        · rw [write_body_eq p line nl cl hcl hsk h1] at hok
          have hcond : ¬(p.memfile_limit < p.size + line.length + p.buf.length ∧
              (p.file.write (p.buf ++ line)).isMem = true) := by
            rw [hf, sink_write_disk]
            simp [Sink.isMem]
          rw [if_neg hcond] at hok
          injection hok with hok
          subst hok
          simp [hf, sink_write_disk, List.append_assoc]
  · intro hf p' hok
    by_cases hsk : line = [] ∧ nl = []
    · refine ⟨fun _ => ?_, fun hne => absurd hsk hne⟩
      simp only [Part.write_body, if_pos hsk] at hok
      cases hok
      exact hf
    · refine ⟨fun h => absurd h hsk, fun _ => ?_⟩
      have hw : p.file.write (p.buf ++ line) =
          .mem (c ++ (p.buf ++ line)) (c ++ (p.buf ++ line)).length := by
        rw [hf, sink_write_mem]
      have hlen : p.size + line.length + p.buf.length = (c ++ (p.buf ++ line)).length := by
        simp [hsz]
        omega
      rcases hcl : p.content_length with _ | cl
      · simp only [Part.write_body, if_neg hsk, hcl] at hok
        simp at hok
      · by_cases h1 : 0 < cl ∧ cl < ((p.size + line.length + p.buf.length : Nat) : Int)
        · rw [write_body_err p line nl cl hcl hsk h1] at hok
          simp at hok
        · rw [write_body_eq p line nl cl hcl hsk h1] at hok
          by_cases hcond : p.memfile_limit < p.size + line.length + p.buf.length ∧
              (p.file.write (p.buf ++ line)).isMem = true
          · rw [if_pos hcond] at hok
            injection hok with hok
            subst hok
            constructor
            · intro _
              simp only [hw, hlen, spillSink_mem _ _ _ hbs]
              simp [List.append_assoc]
            · intro hle
              exact absurd hcond.1 (by omega)
          · rw [if_neg hcond] at hok
            injection hok with hok
            subst hok
            constructor
            · intro hlt
              exact absurd ⟨hlt, by rw [hw]; simp [Sink.isMem]⟩ hcond
            · intro _
              simp [hw, List.append_assoc]

/-- Witness for C5: `partW` (in-memory sink `he`, size 2, spill threshold
4) stays in memory after two more bytes (size 4) but is promoted to a disk
sink with the full content after a third write crosses the threshold. -/
theorem claim5_sink_promotion_witness :
    (∀ p', partW.write_body [108, 108] [] = .ok p' →
      (4 < 2 + 2 + 0 → p'.file = .disk (strBytes "hell") 4) ∧
      (2 + 2 + 0 ≤ 4 → p'.file = .mem (strBytes "hell") 4)) ∧
    (∀ p', ({ partW with file := .mem (strBytes "hell") 4, size := 4 } : Part).write_body
        [111] [] = .ok p' →
      (4 < 4 + 1 + 0 → p'.file = .disk (strBytes "hello") 5) ∧
      (4 + 1 + 0 ≤ 4 → p'.file = .mem (strBytes "hello") 5)) := by
  constructor
  · intro p' hok
    have h := ((claim5_sink_promotion partW [108, 108] [] [104, 101] rfl (by decide)).2
      rfl p' hok).2 (by decide)
    exact h
  · intro p' hok
    have h := ((claim5_sink_promotion
      { partW with file := .mem (strBytes "hell") 4, size := 4 }
      [111] [] (strBytes "hell") (by decide) (by decide)).2
      (by decide) p' hok).2 (by decide)
    exact h

/-- Claim C4: in the stream parser's main loop, after a line is fed into
the current part, the loop fails at once with the memory-limit error when
the part is in-memory and its size plus the memory counter exceeds
`mem_limit`, and with the disk-limit error when the part has spilled and
its size plus the disk counter exceeds `disk_limit`.  The failure is
independent of the remaining lines `rest` — no further data is consumed —
and when neither limit is exceeded the loop simply continues, so the error
fires exactly at the first line whose cumulative size crosses a limit. -/
theorem claim4_limit_per_line (cfg : Config) (st : LoopSt) (prev line nl : Bytes)
    (rest : List (Bytes × Bytes)) (part' : Part)
    (hterm : ¬(line = terminatorOf cfg ∧ st.is_tail = false))
    (hsep : ¬(line = separatorOf cfg ∧ st.is_tail = false))
    (hfeed : st.part.feed line nl = .ok part') :
    (part'.is_buffered = true → cfg.mem_limit < part'.size + st.mem_used →
       iterLoop cfg st prev ((line, nl) :: rest) = .error .memLimit) ∧
    (part'.is_buffered = false → cfg.disk_limit < part'.size + st.disk_used →
       iterLoop cfg st prev ((line, nl) :: rest) = .error .diskLimit) ∧
    ((part'.is_buffered = true → part'.size + st.mem_used ≤ cfg.mem_limit) →
     (part'.is_buffered = false → part'.size + st.disk_used ≤ cfg.disk_limit) →
       iterLoop cfg st prev ((line, nl) :: rest) =
         iterLoop cfg { st with is_tail := (nl = []), part := part' } line rest) := by
  have hstep : iterLoop cfg st prev ((line, nl) :: rest) =
      (if part'.is_buffered then
        if cfg.mem_limit < part'.size + st.mem_used then .error .memLimit
        else iterLoop cfg { st with is_tail := (nl = []), part := part' } line rest
      else if cfg.disk_limit < part'.size + st.disk_used then .error .diskLimit
      else iterLoop cfg { st with is_tail := (nl = []), part := part' } line rest) := by
    simp only [iterLoop, if_neg hterm, if_neg hsep, hfeed]
    rfl
  refine ⟨?_, ?_, ?_⟩
  · intro hb hlt
    rw [hstep, if_pos hb, if_pos hlt]
  · intro hb hlt
    rw [hstep, if_neg (by simp [hb]), if_pos hlt]
  · intro hm hd
    rw [hstep]
    cases hb : part'.is_buffered
    · have hle := hd hb
      rw [if_neg (by simp), if_neg (by omega)]
    · have hle := hm hb
      rw [if_pos rfl, if_neg (by omega)]

/-- Witness for C4: with `mem_limit = 4`, feeding the five-byte line
`world` into a fresh in-memory part makes the loop fail with the
memory-limit error at that very line, for an arbitrary non-boundary rest. -/
theorem claim4_limit_per_line_witness :
    iterLoop cfgW4 stW4 [] ([(strBytes "world", [13, 10]), (strBytes "x", [13, 10])]) =
      .error .memLimit := by
  have h := claim4_limit_per_line cfgW4 stW4 [] (strBytes "world") [13, 10]
    [(strBytes "x", [13, 10])] partW4 (by decide) (by decide) (by rfl)
  exact h.1 (by decide) (by decide)

/-- Nonempty lists ignore `getLastD`'s default. -/
theorem getLastD_ne_nil {α : Type} (l : List α) (d d' : α) (h : l ≠ []) :
    l.getLastD d = l.getLastD d' := by
  cases l with
  | nil => exact absurd rfl h
  | cons a l => rw [List.getLastD_cons, List.getLastD_cons]

/-- `val.split('\\')` never returns an empty list of pieces. -/
theorem splitBackslash_ne_nil (w : Bytes) : header_unquote.splitBackslash w ≠ [] := by
  induction w with
  | nil => simp [header_unquote.splitBackslash]
  | cons c r ih =>
    by_cases hc : c = 92
    · subst hc
      simp [header_unquote.splitBackslash]
    · rcases hsb : header_unquote.splitBackslash r with _ | ⟨p, ps⟩
      · exact absurd hsb ih
      · simp [header_unquote.splitBackslash, hc, hsb]

/-- The last piece of `val.split('\\')`: it contains no backslash; when
the input has a backslash the split has at least two pieces and the last
piece is the suffix following the final backslash; without a backslash the
split is trivial. -/
theorem splitBackslash_last (w : Bytes) :
    92 ∉ (header_unquote.splitBackslash w).getLastD [] ∧
    (92 ∈ w → 92 :: (header_unquote.splitBackslash w).getLastD [] <:+ w) ∧
    (92 ∉ w → header_unquote.splitBackslash w = [w]) ∧
    (92 ∈ w → 2 ≤ (header_unquote.splitBackslash w).length) := by
  induction w with
  | nil => simp [header_unquote.splitBackslash]
  | cons c r ih =>
    obtain ⟨ih1, ih2, ih3, ih4⟩ := ih
    by_cases hc : c = 92
    · subst hc
      have hsb : header_unquote.splitBackslash (92 :: r) =
          [] :: header_unquote.splitBackslash r := by
        simp [header_unquote.splitBackslash]
      have hlast : (header_unquote.splitBackslash (92 :: r)).getLastD [] =
          (header_unquote.splitBackslash r).getLastD [] := by
        rw [hsb, List.getLastD_cons]
      refine ⟨by rw [hlast]; exact ih1, fun _ => ?_,
              fun h => absurd (List.mem_cons_self 92 r) h, fun _ => ?_⟩
      · by_cases hr : 92 ∈ r
        · exact (hlast ▸ ih2 hr).trans (List.suffix_cons 92 r)
        · rw [hlast, ih3 hr]
          simp [List.getLastD_cons, List.getLastD_nil]
      · have hne := splitBackslash_ne_nil r
        rw [hsb]
        simp only [List.length_cons]
        have hpos : 0 < (header_unquote.splitBackslash r).length := List.length_pos.mpr hne
        omega
    · rcases hsb : header_unquote.splitBackslash r with _ | ⟨p, ps⟩
      · exact absurd hsb (splitBackslash_ne_nil r)
      · have heq : header_unquote.splitBackslash (c :: r) = (c :: p) :: ps := by
          simp [header_unquote.splitBackslash, hc, hsb]
        have hmem : (92 : Nat) ∈ c :: r ↔ (92 : Nat) ∈ r := by
          constructor
          · intro h
            rcases List.mem_cons.mp h with h | h
            · exact absurd h.symm hc
            · exact h
          · exact fun h => List.mem_cons_of_mem c h
        cases ps with
        | nil =>
          have hnr : 92 ∉ r := by
            intro hr
            have h4 := ih4 hr
            rw [hsb] at h4
            simp at h4
          have hpr : p = r := by
            have h3 := ih3 hnr
            rw [hsb] at h3
            exact ((List.cons.injEq _ _ _ _).mp h3).1
          refine ⟨?_, fun h92 => absurd (hmem.mp h92) hnr, fun _ => by rw [heq, hpr],
                  fun h92 => absurd (hmem.mp h92) hnr⟩
          rw [heq]
          simp only [List.getLastD_cons, List.getLastD_nil]
          intro hmem92
          rcases List.mem_cons.mp hmem92 with h92 | h92
          · exact hc h92.symm
          · have h1 := ih1
            rw [hsb] at h1
            simp only [List.getLastD_cons, List.getLastD_nil] at h1
            exact h1 h92
        | cons p2 ps2 =>
          have hr92 : 92 ∈ r := by
            by_contra hnr
            have := ih3 hnr
            rw [hsb] at this
            have := congrArg List.length this
            simp at this
          have hlast : (header_unquote.splitBackslash (c :: r)).getLastD [] =
              (header_unquote.splitBackslash r).getLastD [] := by
            have hL : (header_unquote.splitBackslash (c :: r)).getLastD [] =
                (p2 :: ps2).getLastD (c :: p) := by rw [heq, List.getLastD_cons]
            have hR : (header_unquote.splitBackslash r).getLastD [] =
                (p2 :: ps2).getLastD p := by rw [hsb, List.getLastD_cons]
            rw [hL, hR]
            exact getLastD_ne_nil (p2 :: ps2) (c :: p) p (by simp)
          refine ⟨by rw [hlast]; exact ih1, fun _ => ?_, fun h => absurd (hmem.mpr hr92) h,
                  fun _ => ?_⟩
          · exact (hlast ▸ ih2 hr92).trans (List.suffix_cons c r)
          · rw [heq]
            simp

/-- `.replace('\\\\', '\\')` does nothing to a backslash-free string. -/
theorem replaceBsBs_no_bs : ∀ v : Bytes, 92 ∉ v → header_unquote.replaceBsBs v = v := by
  intro v
  induction v with
  | nil => intro _; rfl
  | cons c r ih =>
    intro h
    simp only [List.mem_cons, not_or] at h
    obtain ⟨hc, hr⟩ := h
    have step : header_unquote.replaceBsBs (c :: r) = c :: header_unquote.replaceBsBs r := by
      cases r with
      | nil => simp [header_unquote.replaceBsBs]
      | cons d r2 => simp [header_unquote.replaceBsBs, Ne.symm hc]
    rw [step, ih hr]

/-- `.replace('\\"', '"')` does nothing to a backslash-free string. -/
theorem replaceBsQuote_no_bs : ∀ v : Bytes, 92 ∉ v →
    header_unquote.replaceBsQuote v = v := by
  intro v
  induction v with
  | nil => intro _; rfl
  | cons c r ih =>
    intro h
    simp only [List.mem_cons, not_or] at h
    obtain ⟨hc, hr⟩ := h
    have step : header_unquote.replaceBsQuote (c :: r) =
        c :: header_unquote.replaceBsQuote r := by
      cases r with
      | nil => simp [header_unquote.replaceBsQuote]
      | cons d r2 => simp [header_unquote.replaceBsQuote, Ne.symm hc]
    rw [step, ih hr]

/-- Claim C10: `header_unquote` ignores its `filename` parameter entirely
(identical results for both flag values), and for every double-quoted
value whose quote-stripped content `w` matches the Windows-path pattern
(second and third characters `:\`, or leading `\\`) it returns exactly the
trailing path component: the backslash-free suffix of `w` preceded by the
last backslash. -/
theorem claim10_filename_ignored (v w : Bytes) (b b1 b2 : Bool)
    (hw : (w.drop 1).take 2 = [58, 92] ∨ w.take 2 = [92, 92]) :
    header_unquote v b1 = header_unquote v b2 ∧
    ∃ res, header_unquote (34 :: (w ++ [34])) b = .ok res ∧
      92 ∉ res ∧ (92 :: res) <:+ w := by
  constructor
  · cases v with
    | nil => rfl
    | cons c r => rfl
  · obtain ⟨hbs1, hbs2, _, _⟩ := splitBackslash_last w
    have hw92 : (92 : Nat) ∈ w := by
      rcases hw with hw | hw
      · have : 92 ∈ (w.drop 1).take 2 := by rw [hw]; simp
        exact List.mem_of_mem_drop (List.mem_of_mem_take this)
      · have : 92 ∈ w.take 2 := by rw [hw]; simp
        exact List.mem_of_mem_take this
    refine ⟨(header_unquote.splitBackslash w).getLastD [], ?_, hbs1, hbs2 hw92⟩
    have hstrip : ((34 :: (w ++ [34])).drop 1).dropLast = w := by
      simp
    have hpath : ((((34 :: (w ++ [34])).drop 1).dropLast).drop 1).take 2 = [58, 92] ∨
        (((34 :: (w ++ [34])).drop 1).dropLast).take 2 = [92, 92] := by
      rw [hstrip]
      exact hw
    have hrw : header_unquote (34 :: (w ++ [34])) b =
        (if (34 :: (w ++ [34])).head? = some 34 ∧ (34 :: (w ++ [34])).getLast? = some 34 then
          let v := ((34 :: (w ++ [34])).drop 1).dropLast
          let v2 := if (v.drop 1).take 2 = [58, 92] ∨ v.take 2 = [92, 92] then
                      (header_unquote.splitBackslash v).getLastD []
                    else v
          .ok (header_unquote.replaceBsQuote (header_unquote.replaceBsBs v2))
        else .ok (34 :: (w ++ [34]))) := rfl
    have hcond : (34 :: (w ++ [34])).head? = some 34 ∧
        (34 :: (w ++ [34])).getLast? = some 34 := by
      refine ⟨rfl, ?_⟩
      have hform : 34 :: (w ++ [34]) = (34 :: w) ++ [34] := rfl
      rw [hform, List.getLast?_concat]
    rw [hrw, if_pos hcond]
    simp only [hstrip, if_pos hw]
    rw [replaceBsBs_no_bs _ hbs1, replaceBsQuote_no_bs _ hbs1]

/-- The first line produced by the `splitlines` scan is clean content
(no CR, no LF) followed by one of the terminators `\r\n`, `\n`, `\r` or
nothing, provided the accumulator is clean. -/
theorem splitlinesAux_head (b : Bytes) : ∀ (acc l0 : Bytes) (rest : List Bytes),
    splitlinesAux acc b = l0 :: rest →
    (∀ x ∈ acc, x ≠ 13 ∧ x ≠ 10) →
    ∃ c t, l0 = c ++ t ∧ (∀ x ∈ c, x ≠ 13 ∧ x ≠ 10) ∧
      (t = [13, 10] ∨ t = [10] ∨ t = [13] ∨ t = []) := by
  induction b with
  | nil =>
    intro acc l0 rest h hacc
    by_cases ha : acc = []
    · rw [ha] at h
      simp [splitlinesAux] at h
    · rw [show splitlinesAux acc [] = [acc.reverse] by simp [splitlinesAux, ha]] at h
      obtain ⟨h1, _⟩ := (List.cons.injEq _ _ _ _).mp h
      exact ⟨acc.reverse, [], by simp [h1], fun x hx => hacc x (List.mem_reverse.mp hx), by simp⟩
  | cons x xs ih =>
    intro acc l0 rest h hacc
    by_cases hx13 : x = 13
    · subst hx13
      cases xs with
      | nil =>
        rw [show splitlinesAux acc [13] = [acc.reverse ++ [13]] from by
          simp [splitlinesAux]] at h
        obtain ⟨h1, _⟩ := (List.cons.injEq _ _ _ _).mp h
        exact ⟨acc.reverse, [13], h1.symm,
          fun x hx => hacc x (List.mem_reverse.mp hx), by simp⟩
      | cons y ys =>
        by_cases hy : y = 10
        · subst hy
          rw [show splitlinesAux acc (13 :: 10 :: ys) =
              (acc.reverse ++ [13, 10]) :: splitlinesAux [] ys from by
            simp [splitlinesAux]] at h
          obtain ⟨h1, _⟩ := (List.cons.injEq _ _ _ _).mp h
          exact ⟨acc.reverse, [13, 10], h1.symm,
            fun x hx => hacc x (List.mem_reverse.mp hx), by simp⟩
        · rw [show splitlinesAux acc (13 :: y :: ys) =
              (acc.reverse ++ [13]) :: splitlinesAux [] (y :: ys) from by
            simp [splitlinesAux, hy]] at h
          obtain ⟨h1, _⟩ := (List.cons.injEq _ _ _ _).mp h
          exact ⟨acc.reverse, [13], h1.symm,
            fun x hx => hacc x (List.mem_reverse.mp hx), by simp⟩
    · by_cases hx10 : x = 10
      · subst hx10
        rw [show splitlinesAux acc (10 :: xs) =
            (acc.reverse ++ [10]) :: splitlinesAux [] xs from by
          simp [splitlinesAux]] at h
        obtain ⟨h1, _⟩ := (List.cons.injEq _ _ _ _).mp h
        exact ⟨acc.reverse, [10], h1.symm,
          fun x hx => hacc x (List.mem_reverse.mp hx), by simp⟩
      · rw [show splitlinesAux acc (x :: xs) = splitlinesAux (x :: acc) xs from by
          simp [splitlinesAux, hx13, hx10]] at h
        refine ih (x :: acc) l0 rest h ?_
        intro z hz
        rcases List.mem_cons.mp hz with hz | hz
        · exact ⟨hz ▸ hx13, hz ▸ hx10⟩
        · exact hacc z hz

/-- Claim C2: when the first line of a chunk (buffered partial line plus
new data, as split by `splitlines`) exceeds the buffer size `L`, it is
force-split at position `L` — except that a line of exactly `L + 1` bytes
ending in `\r\n` is split at `L - 1` — so a `\r\n` terminator is never
broken across the split (the first piece never ends in `\r` with the
remainder starting in `\n`); the first piece is classified with the empty,
not-yet-determined terminator, and the split-off remainder re-enters the
line queue as the next fresh line. -/
theorem claim2_force_split (L : Nat) (buffer data l0 : Bytes) (restL : List Bytes) (p : Nat)
    (hsplit : splitlines (buffer ++ data) = l0 :: restL)
    (hlen : L < l0.length)
    (hp : p = if l0.length = L + 1 ∧ [13, 10] <:+ l0 then L - 1 else L) :
    forceSplitFirst L (l0 :: restL) = l0.take p :: l0.drop p :: restL ∧
    ¬([13] <:+ l0.take p ∧ [10] <+: l0.drop p) ∧
    classifyLine (l0.take p) = (l0.take p, []) := by
  obtain ⟨c, t, hct, hclean, ht⟩ :=
    splitlinesAux_head (buffer ++ data) [] l0 restL hsplit (by simp)
  have htlen : t.length ≤ 2 := by rcases ht with h | h | h | h <;> simp [h]
  have hlc : l0.length = c.length + t.length := by rw [hct]; simp
  have hpc : p ≤ c.length := by
    rw [hp]
    split_ifs with hsp
    · obtain ⟨hL1, hcrlf⟩ := hsp
      have ht2 : t = [13, 10] := by
        rcases ht with h | h | h | h
        · exact h
        · exfalso
          have h13 : (13 : Nat) ∈ l0 := hcrlf.subset (by simp)
          rw [hct, h] at h13
          rcases List.mem_append.mp h13 with hm | hm
          · exact (hclean 13 hm).1 rfl
          · simp at hm
        · exfalso
          have h10 : (10 : Nat) ∈ l0 := hcrlf.subset (by simp)
          rw [hct, h] at h10
          rcases List.mem_append.mp h10 with hm | hm
          · exact (hclean 10 hm).2 rfl
          · simp at hm
        · exfalso
          have h13 : (13 : Nat) ∈ l0 := hcrlf.subset (by simp)
          rw [hct, h] at h13
          rcases List.mem_append.mp h13 with hm | hm
          · exact (hclean 13 hm).1 rfl
          · simp at hm
      rw [ht2] at hlc
      simp at hlc
      omega
    · by_cases hL1 : l0.length = L + 1
      · have ht' : t ≠ [13, 10] := by
          intro ht2
          exact hsp ⟨hL1, by rw [hct, ht2]; exact List.suffix_append c [13, 10]⟩
        have ht1 : t.length ≤ 1 := by
          rcases ht with h | h | h | h
          · exact absurd h ht'
          all_goals simp [h]
        omega
      · omega
  have htake : l0.take p = c.take p := by
    rw [hct, List.take_append_eq_append_take, Nat.sub_eq_zero_of_le hpc]
    simp
  have hclean1 : ∀ x ∈ l0.take p, x ≠ 13 ∧ x ≠ 10 := by
    intro x hx
    rw [htake] at hx
    exact hclean x (List.mem_of_mem_take hx)
  refine ⟨?_, ?_, ?_⟩
  · simp only [forceSplitFirst, if_pos hlen]
    rw [← hp]
  · rintro ⟨h13, _⟩
    exact (hclean1 13 (h13.subset (by simp))).1 rfl
  · have h1 : ¬ [13, 10] <:+ l0.take p :=
      fun h => (hclean1 10 (h.subset (by simp))).2 rfl
    have h2 : ¬ [10] <:+ l0.take p :=
      fun h => (hclean1 10 (h.subset (by simp))).2 rfl
    have h3 : ¬ [13] <:+ l0.take p :=
      fun h => (hclean1 13 (h.subset (by simp))).1 rfl
    simp [classifyLine, h1, h2, h3]

/-- Witness for C2: with `L = 4`, the single line `aaa\r\n` (5 bytes,
exactly `L + 1`, ending in `\r\n`) is split at position 3: piece `aaa`
with empty terminator, remainder `\r\n` re-queued intact. -/
theorem claim2_force_split_witness :
    forceSplitFirst 4 [[97, 97, 97, 13, 10]] =
      [[97, 97, 97], [13, 10]] ∧
    classifyLine [97, 97, 97] = ([97, 97, 97], []) := by
  have h := claim2_force_split 4 [] [97, 97, 97, 13, 10] [97, 97, 97, 13, 10] [] 3
    (by decide) (by decide) (by decide)
  exact ⟨h.1, h.2.2⟩

/-- Witness for C10: the quoted Windows path `"C:\dir\file.txt"` matches
the drive-letter pattern and unquotes to a backslash-free component
preceded by the last backslash (i.e. `file.txt`), with the filename flag
making no difference. -/
theorem claim10_filename_ignored_witness :
    (((strBytes "C:\\dir\\file.txt").drop 1).take 2 = [58, 92] ∨
      (strBytes "C:\\dir\\file.txt").take 2 = [92, 92]) ∧
    header_unquote (strBytes "\"C:\\dir\\file.txt\"") true =
      header_unquote (strBytes "\"C:\\dir\\file.txt\"") false ∧
    (∃ res, header_unquote (34 :: (strBytes "C:\\dir\\file.txt" ++ [34])) true = .ok res ∧
      92 ∉ res ∧ (92 :: res) <:+ strBytes "C:\\dir\\file.txt") :=
  ⟨by decide,
   (claim10_filename_ignored (strBytes "\"C:\\dir\\file.txt\"")
     (strBytes "C:\\dir\\file.txt") true true false (by decide)).1,
   (claim10_filename_ignored [] (strBytes "C:\\dir\\file.txt") true true false (by decide)).2⟩

/-- Claim C8: when parsing succeeds, iterating a parser instance twice
yields the same parts in the same order; the generator is created (and the
stream consumed) only by the first iteration — `streamPasses` is 1 after
the first run and still 1 after the second, which replays the `_done`
cache. -/
theorem claim8_cached_reiteration (cfg : Config) (stream : Bytes) (ps : List Part)
    (h : iterparse cfg stream = .ok ps) :
    ∃ st1 st2,
      (ParserObj.start cfg stream).iterate = .ok (ps, st1) ∧
      st1.iterate = .ok (ps, st2) ∧
      st1.streamPasses = 1 ∧ st2.streamPasses = 1 := by
  refine ⟨{ cfg := cfg, stream := stream, done := ps, part_iter := some [], streamPasses := 1 },
          { cfg := cfg, stream := stream, done := ps, part_iter := some [], streamPasses := 1 },
          ?_, ?_, rfl, rfl⟩
  · simp [ParserObj.iterate, ParserObj.start, h]
  · simp [ParserObj.iterate]

/-- Witness for C8: the scenario stream parses successfully, and the two
iterations of the parser object agree, with a single stream pass. -/
theorem claim8_cached_reiteration_witness :
    ∃ st1 st2,
      (ParserObj.start cfgB streamScenario).iterate = .ok (psScenario, st1) ∧
      st1.iterate = .ok (psScenario, st2) ∧
      st1.streamPasses = 1 ∧ st2.streamPasses = 1 :=
  claim8_cached_reiteration cfgB streamScenario psScenario (by rfl)

/-- Claim C9: for every sealed part (a part whose sink exists) and every
current read position, the `raw` accessor returns the complete body bytes
and restores the read position — also on the injected I/O-error path,
thanks to the `finally`. -/
theorem claim9_raw_frame (p : Part) (failRead : Bool) (hf : p.file ≠ .off) :
    ((p.raw failRead).2.file.tell = p.file.tell) ∧
    ((p.raw failRead).2.file.contentOf = p.file.contentOf) ∧
    (failRead = false → (p.raw failRead).1 = .ok p.file.contentOf) := by
  rcases hp : p.file with _ | ⟨c, pos⟩ | ⟨c, pos⟩
  · exact absurd hp hf
  all_goals cases failRead <;>
    simp [Part.raw, hp, Sink.tell, Sink.seek, Sink.readAll, Sink.contentOf]

/-- Witness for C9: a concrete in-memory part at read position 2; `raw`
returns the whole body and the position stays 2, in both the normal and
the failing-read run. -/
theorem claim9_raw_frame_witness :
    partW.file ≠ .off ∧
    (partW.raw true).2.file.tell = 2 ∧
    (partW.raw false).2.file.tell = 2 ∧
    (partW.raw false).1 = .ok [104, 101] :=
  ⟨by decide,
   (claim9_raw_frame partW true (by decide)).1,
   (claim9_raw_frame partW false (by decide)).1,
   (claim9_raw_frame partW false (by decide)).2.2 rfl⟩

/-- A successful backtracking search has a successful candidate. -/
theorem tryCands_some {α : Type} (f : Nat → Option α) (n : Nat) (a : α)
    (h : tryCands f n = some a) : ∃ k, f k = some a := by
  induction n with
  | zero => exact ⟨0, h⟩
  | succ n ih =>
    rw [tryCands] at h
    rcases ho : f (n + 1) with _ | b
    · rw [ho] at h
      simp only [Option.none_orElse] at h
      exact ih h
    · rw [ho] at h
      simp only [Option.some_orElse] at h
      exact ⟨n + 1, by rw [ho, h]⟩

/-- A successful backtracking search (at-least-one form) has a successful
candidate. -/
theorem tryCands1_some {α : Type} (f : Nat → Option α) (n : Nat) (a : α)
    (h : tryCands1 f n = some a) : ∃ k, f k = some a := by
  induction n with
  | zero => simp [tryCands1] at h
  | succ n ih =>
    rw [tryCands1] at h
    rcases ho : f (n + 1) with _ | b
    · rw [ho] at h
      simp only [Option.none_orElse] at h
      exact ih h
    · rw [ho] at h
      simp only [Option.some_orElse] at h
      exact ⟨n + 1, by rw [ho, h]⟩

/-- A matched option value (group 2) is never the empty string: both
alternatives of the value pattern consume at least one character. -/
theorem matchValue_ne_nil (t v : Bytes) (h : matchValue t = some v) : v ≠ [] := by
  intro hc
  subst hc
  rcases t with _ | ⟨c, r⟩
  · simp [matchValue, runLen] at h
  · rw [matchValue] at h
    split_ifs at h with hv hc34
    · have hlen := congrArg List.length ((Option.some.injEq _ _).mp h)
      simp only [List.length_take, List.length_nil] at hlen
      rcases Nat.min_eq_zero_iff.mp hlen with h0 | h0
      · omega
      · simp at h0
    · rcases hq : qtail r with _ | q
      · rw [hq] at h
        simp at h
      · rw [hq] at h
        simp only [Option.map_some'] at h
        have := (Option.some.injEq _ _).mp h
        simp [List.take] at this

/-- A match produced by `tryFrom` has a nonempty value. -/
theorem tryFrom_value (t : Bytes) (m : OptMatch) (h : tryFrom t = some m) :
    m.value ≠ [] := by
  rw [tryFrom] at h
  obtain ⟨d, hd⟩ := tryCands_some _ _ _ h
  obtain ⟨e, he⟩ := tryCands1_some _ _ _ hd
  obtain ⟨d2, hd2⟩ := tryCands_some _ _ _ he
  split at hd2
  · obtain ⟨d3, hd3⟩ := tryCands_some _ _ _ hd2
    rcases hmv : matchValue _ with _ | v
    · rw [hmv] at hd3
      simp at hd3
    · rw [hmv] at hd3
      simp only [Option.map_some'] at hd3
      have hvne := matchValue_ne_nil _ _ hmv
      have hm := (Option.some.injEq _ _).mp hd3
      rw [← hm]
      simpa using hvne
  · simp at hd2

/-- A match produced by `matchAt` has a nonempty value. -/
theorem matchAt_value (s : Bytes) (i : Nat) (m : OptMatch) (e : Nat)
    (h : matchAt s i = some (m, e)) : m.value ≠ [] := by
  rw [matchAt] at h
  rcases h1 : (match s.drop i with
      | 59 :: t => (tryFrom t).map (fun (m : OptMatch) => (m, i + 1 + m.len))
      | _ => none) with _ | p
  · rw [h1] at h
    simp only [Option.none_orElse] at h
    split_ifs at h with hi
    · rcases hf : tryFrom (s.drop i) with _ | m'
      · rw [hf] at h
        simp at h
      · rw [hf] at h
        simp only [Option.map_some'] at h
        have hm := (Option.some.injEq _ _).mp h.symm
        have : m = m' := by
          have := congrArg Prod.fst hm
          simpa using this
        rw [this]
        exact tryFrom_value _ _ hf
  · rw [h1] at h
    simp only [Option.some_orElse] at h
    have hp : p = (m, e) := by simpa using h
    rw [hp] at h1
    split at h1
    · rcases hf : tryFrom _ with _ | m'
      · rw [hf] at h1
        simp at h1
      · rw [hf] at h1
        simp only [Option.map_some'] at h1
        have hm := (Option.some.injEq _ _).mp h1.symm
        have : m = m' := by
          have := congrArg Prod.fst hm
          simpa using this
        rw [this]
        exact tryFrom_value _ _ hf
    · simp at h1

/-- Every match the `finditer` scan returns has a nonempty value. -/
theorem finditer_value (s : Bytes) : ∀ (fuel i : Nat) (m : OptMatch),
    m ∈ finditerAux s fuel i → m.value ≠ [] := by
  intro fuel
  induction fuel with
  | zero =>
    intro i m h
    simp [finditerAux] at h
  | succ fuel ih =>
    intro i m h
    rw [finditerAux] at h
    split at h
    · rename_i m' e hm
      rcases List.mem_cons.mp h with rfl | h2
      · exact matchAt_value s i m e hm
      · exact ih _ _ h2
    · split at h
      · exact ih _ _ h
      · simp at h

/-- `header_unquote` succeeds on every nonempty input. -/
theorem header_unquote_ok (v : Bytes) (b : Bool) (h : v ≠ []) :
    ∃ r, header_unquote v b = .ok r := by
  cases v with
  | nil => exact absurd rfl h
  | cons c r =>
    have hrw : header_unquote (c :: r) b =
        (if (c :: r).head? = some 34 ∧ (c :: r).getLast? = some 34 then
          let v := ((c :: r).drop 1).dropLast
          let v2 := if (v.drop 1).take 2 = [58, 92] ∨ v.take 2 = [92, 92] then
                      (header_unquote.splitBackslash v).getLastD []
                    else v
          .ok (header_unquote.replaceBsQuote (header_unquote.replaceBsBs v2))
        else .ok (c :: r)) := rfl
    rw [hrw]
    split_ifs
    · exact ⟨_, rfl⟩
    · exact ⟨_, rfl⟩

/-- The fold over the regex matches succeeds as soon as every match value
is nonempty. -/
theorem foldl_opts_ok (ms : List OptMatch) : ∀ acc : List (Bytes × Bytes),
    (∀ m ∈ ms, m.value ≠ []) →
    ∃ opts, ms.foldlM optsStep acc = Except.ok opts := by
  induction ms with
  | nil =>
    intro acc _
    exact ⟨acc, rfl⟩
  | cons m ms ih =>
    intro acc hv
    obtain ⟨r, hr⟩ := header_unquote_ok m.value (pyLower m.key = strBytes "filename")
      (hv m (List.mem_cons_self m ms))
    obtain ⟨opts, hopts⟩ := ih (dictSet acc (pyLower m.key) r)
      (fun m' hm' => hv m' (List.mem_cons_of_mem m hm'))
    refine ⟨opts, ?_⟩
    rw [List.foldlM_cons]
    simp only [optsStep, hr]
    exact hopts

/-- Entries of `dictSet d k v` are old entries or the new binding. -/
theorem dictSet_mem (d : List (Bytes × Bytes)) (k v : Bytes) :
    ∀ kv ∈ dictSet d k v, kv ∈ d ∨ kv = (k, v) := by
  induction d with
  | nil =>
    intro kv h
    rw [dictSet] at h
    exact Or.inr (by simpa using h)
  | cons a d ih =>
    intro kv h
    rw [dictSet] at h
    split_ifs at h with hk
    · rcases List.mem_cons.mp h with rfl | h2
      · exact Or.inr rfl
      · exact Or.inl (List.mem_cons_of_mem _ h2)
    · rcases List.mem_cons.mp h with rfl | h2
      · exact Or.inl (List.mem_cons_self _ _)
      · rcases ih kv h2 with h3 | h3
        · exact Or.inl (List.mem_cons_of_mem _ h3)
        · exact Or.inr h3

/-- `dictGet` on a cons: first entry wins, otherwise look further. -/
theorem dictGet_cons (a : Bytes × Bytes) (d : List (Bytes × Bytes)) (k : Bytes) :
    dictGet (a :: d) k = if a.1 = k then some a.2 else dictGet d k := by
  by_cases ha : a.1 = k <;> simp [dictGet, List.find?, ha]

/-- `dictGet` after `dictSet`: the stored key returns the new value, all
other keys are unaffected. -/
theorem dictGet_dictSet (d : List (Bytes × Bytes)) (k v k' : Bytes) :
    dictGet (dictSet d k v) k' = if k = k' then some v else dictGet d k' := by
  induction d with
  | nil =>
    rw [dictSet, dictGet_cons]
  | cons a d ih =>
    by_cases ha : a.1 = k
    · rw [dictSet, if_pos ha, dictGet_cons]
      by_cases hk : k = k'
      · rw [if_pos (show (k, v).1 = k' from hk), if_pos hk]
      · rw [if_neg (show ¬ (k, v).1 = k' from hk), if_neg hk, dictGet_cons,
            if_neg (show ¬ a.1 = k' by rw [ha]; exact hk)]
    · rw [dictSet, if_neg ha, dictGet_cons (a.1, a.2) (dictSet d k v) k', ih,
          dictGet_cons a d k']
      by_cases hak : a.1 = k'
      · have hk : ¬ k = k' := fun h => ha (by rw [h]; exact hak)
        rw [if_pos (show (a.1, a.2).1 = k' from hak), if_neg hk, if_pos hak]
      · by_cases hk : k = k'
        · rw [if_neg (show ¬ (a.1, a.2).1 = k' from hak), if_pos hk, if_pos hk]
        · rw [if_neg (show ¬ (a.1, a.2).1 = k' from hak), if_neg hk, if_neg hk, if_neg hak]

/-- A `dictGet` hit is an entry of the dictionary. -/
theorem dictGet_some_mem (d : List (Bytes × Bytes)) (k v : Bytes)
    (h : dictGet d k = some v) : (k, v) ∈ d := by
  unfold dictGet at h
  rcases hf : d.find? (fun kv => kv.1 = k) with _ | kv
  · rw [hf] at h
    simp at h
  · rw [hf] at h
    simp only [Option.map_some'] at h
    have hmem := List.mem_of_find?_eq_some hf
    have hp := List.find?_some hf
    rcases kv with ⟨k1, v1⟩
    simp at hp h
    rw [← hp, ← h]
    exact hmem

/-- Last-wins characterization of the options fold: a key with no match
keeps its starting value, and a key with matches ends up holding the
unquoted value of the last (scan-order) match with that lower-cased key —
exactly Python's `options[key] = value` inside the `finditer` loop. -/
theorem foldl_opts_get (ms : List OptMatch) : ∀ (acc opts : List (Bytes × Bytes)) (k : Bytes),
    ms.foldlM optsStep acc = Except.ok opts →
    (ms.reverse.find? (fun x => pyLower x.key = k) = none →
       dictGet opts k = dictGet acc k) ∧
    (∀ m', ms.reverse.find? (fun x => pyLower x.key = k) = some m' →
       ∃ v, header_unquote m'.value (pyLower m'.key = strBytes "filename") = .ok v ∧
         dictGet opts k = some v) := by
  induction ms with
  | nil =>
    intro acc opts k h
    rw [List.foldlM_nil] at h
    cases h
    exact ⟨fun _ => rfl, fun m' hm' => by simp at hm'⟩
  | cons m ms ih =>
    intro acc opts k h
    rw [List.foldlM_cons] at h
    rcases hu : header_unquote m.value (pyLower m.key = strBytes "filename") with e | r
    · simp only [optsStep, hu] at h
      simp [Bind.bind, Except.bind] at h
    · simp only [optsStep, hu] at h
      have h' : ms.foldlM optsStep (dictSet acc (pyLower m.key) r) = Except.ok opts := by
        simpa using h
      have IH := ih (dictSet acc (pyLower m.key) r) opts k h'
      have hrev : (m :: ms).reverse = ms.reverse ++ [m] := by simp
      constructor
      · intro hnone
        rw [hrev, List.find?_append] at hnone
        rcases ho1 : ms.reverse.find? (fun x => pyLower x.key = k) with _ | m1
        · rw [ho1, Option.none_or] at hnone
          have hk : ¬ (pyLower m.key = k) := by
            intro hk
            rw [List.find?_cons_of_pos _ (by simp [hk])] at hnone
            simp at hnone
          rw [IH.1 ho1, dictGet_dictSet, if_neg hk]
        · rw [ho1] at hnone
          simp [Option.or] at hnone
      · intro m' hm'
        rw [hrev, List.find?_append] at hm'
        rcases ho1 : ms.reverse.find? (fun x => pyLower x.key = k) with _ | m1
        · rw [ho1, Option.none_or] at hm'
          have hm'm : m' = m := by
            have := List.mem_of_find?_eq_some hm'
            simpa using this
          subst hm'm
          have hk : pyLower m'.key = k := by
            have := List.find?_some hm'
            simpa using this
          refine ⟨r, hu, ?_⟩
          rw [IH.1 ho1, dictGet_dictSet, if_pos hk]
        · rw [ho1] at hm'
          simp [Option.or] at hm'
          exact IH.2 m' (by rw [ho1, hm'])

/-- Every entry of a successful fold over the matches comes from the
starting accumulator or from one of the matches, lower-cased and
unquoted. -/
theorem foldl_opts_origin (ms : List OptMatch) : ∀ (acc opts : List (Bytes × Bytes)),
    ms.foldlM optsStep acc = Except.ok opts →
    ∀ kv ∈ opts, kv ∈ acc ∨ ∃ m ∈ ms, kv.1 = pyLower m.key ∧
      header_unquote m.value (pyLower m.key = strBytes "filename") = .ok kv.2 := by
  induction ms with
  | nil =>
    intro acc opts h kv hkv
    rw [List.foldlM_nil] at h
    cases h
    exact Or.inl hkv
  | cons m ms ih =>
    intro acc opts h kv hkv
    rw [List.foldlM_cons] at h
    rcases hu : header_unquote m.value (pyLower m.key = strBytes "filename") with e | r
    · simp only [optsStep, hu] at h
      simp [Bind.bind, Except.bind] at h
    · simp only [optsStep, hu] at h
      have hrec := ih (dictSet acc (pyLower m.key) r) opts (by simpa using h) kv hkv
      rcases hrec with hin | ⟨m', hm', h1, h2⟩
      · rcases dictSet_mem acc _ _ kv hin with h3 | h3
        · exact Or.inl h3
        · refine Or.inr ⟨m, List.mem_cons_self m ms, ?_, ?_⟩
          · rw [h3]
          · rw [h3]
            exact hu
      · exact Or.inr ⟨m', List.mem_cons_of_mem m hm', h1, h2⟩

/-- Counterexample to C6, two conj groups.  First: in `x";y"; name=a` the
first `;` sits inside double quotes; `parse_options_header` splits at that
quoted `;` — primary token `x"` — not at the first unquoted `;` as the
claim states, which would keep `x";y"` together.  Second: in `x; a=1; a=2`
the tail contains the pair `a=1` (it is one of the regex matches), yet the
recorded options are exactly `a ↦ 2` — the earlier pair is not recorded
with its own value, the later pair for the same key overwrote it. -/
theorem claim6_counterexample :
    (parse_options_header (strBytes "x\";y\"; name=a")).map Prod.fst =
      .ok (strBytes "x\"") ∧
    specUnquotedPrimary (strBytes "x\";y\"; name=a") false = strBytes "x\";y\"" ∧
    strBytes "x\"" ≠ strBytes "x\";y\"" ∧
    (finditerOpts (((strBytes "x; a=1; a=2").dropWhile (fun c => c ≠ 59)).drop 1)).map
        (fun m => (m.key, m.value)) =
      [(strBytes "a", strBytes "1"), (strBytes "a", strBytes "2")] ∧
    (parse_options_header (strBytes "x; a=1; a=2")).map Prod.snd =
      .ok [(strBytes "a", strBytes "2")] := by
  refine ⟨by rfl, by rfl, by decide, by rfl, by rfl⟩

/-- Claim C6 as amended: `parse_options_header` splits on the first `;` —
quoted or not — into a primary token and an option tail; every `key=value`
pair in the tail (every match of the option regex) is recorded with the
key lower-cased and the value unquoted by `header_unquote` (surrounding
double quotes removed, backslash escapes undone), a later pair for the
same lower-cased key overwriting an earlier one, so the key ends up
holding the unquoted value of its last pair (completeness); every
recorded option comes from such a pair, so malformed fragments contribute
no option (soundness); and no exception is ever raised. -/
theorem claim6_options_header (header : Bytes) :
    (∃ r, parse_options_header header = .ok r) ∧
    (59 ∈ header →
      ∃ opts, parse_options_header header =
          .ok (header.takeWhile (fun c => c ≠ 59), opts) ∧
        (∀ m ∈ finditerOpts ((header.dropWhile (fun c => c ≠ 59)).drop 1),
          ∃ m' v,
            (finditerOpts ((header.dropWhile (fun c => c ≠ 59)).drop 1)).reverse.find?
                (fun x => pyLower x.key = pyLower m.key) = some m' ∧
            pyLower m'.key = pyLower m.key ∧
            header_unquote m'.value (pyLower m'.key = strBytes "filename") = .ok v ∧
            (pyLower m.key, v) ∈ opts) ∧
        (∀ kv ∈ opts,
          ∃ m ∈ finditerOpts ((header.dropWhile (fun c => c ≠ 59)).drop 1),
            kv.1 = pyLower m.key ∧
            header_unquote m.value (pyLower m.key = strBytes "filename") = .ok kv.2)) := by
  by_cases h59 : (59 : Nat) ∈ header
  · have hvals : ∀ m ∈ finditerOpts ((header.dropWhile (fun c => c ≠ 59)).drop 1),
        m.value ≠ [] :=
      fun m hm => finditer_value _ _ _ m hm
    obtain ⟨opts, hopts⟩ := foldl_opts_ok _ [] hvals
    have hpo : parse_options_header header =
        .ok (header.takeWhile (fun c => c ≠ 59), opts) := by
      rw [parse_options_header]
      simp only [if_pos h59, hopts]
      rfl
    refine ⟨⟨_, hpo⟩, fun _ => ⟨opts, hpo, ?_, ?_⟩⟩
    · intro m hm
      have hsome : ((finditerOpts ((header.dropWhile (fun c => c ≠ 59)).drop 1)).reverse.find?
          (fun x => pyLower x.key = pyLower m.key)).isSome := by
        rw [List.find?_isSome]
        exact ⟨m, List.mem_reverse.mpr hm, by simp⟩
      obtain ⟨m', hm'⟩ := Option.isSome_iff_exists.mp hsome
      obtain ⟨v, huv, hget⟩ := (foldl_opts_get _ [] opts (pyLower m.key) hopts).2 m' hm'
      refine ⟨m', v, hm', ?_, huv, dictGet_some_mem _ _ _ hget⟩
      have := List.find?_some hm'
      simpa using this
    · intro kv hkv
      rcases foldl_opts_origin _ [] opts hopts kv hkv with h | h
      · simp at h
      · exact h
  · refine ⟨⟨(pyStrip (pyLower header), []), ?_⟩, fun h => absurd h h59⟩
    rw [parse_options_header]
    simp only [if_neg h59]
    rfl

/-- Witness for the amended C6: `a; b=c` contains a `;`, splits into
primary `a`, and the tail's single pair `b=c` is recorded (completeness)
while every recorded option stems from a pair (soundness). -/
theorem claim6_options_header_witness :
    (59 : Nat) ∈ strBytes "a; b=c" ∧
    ∃ opts, parse_options_header (strBytes "a; b=c") =
        .ok ((strBytes "a; b=c").takeWhile (fun c => c ≠ 59), opts) ∧
      (∀ m ∈ finditerOpts (((strBytes "a; b=c").dropWhile (fun c => c ≠ 59)).drop 1),
        ∃ m' v,
          (finditerOpts (((strBytes "a; b=c").dropWhile (fun c => c ≠ 59)).drop 1)).reverse.find?
              (fun x => pyLower x.key = pyLower m.key) = some m' ∧
          pyLower m'.key = pyLower m.key ∧
          header_unquote m'.value (pyLower m'.key = strBytes "filename") = .ok v ∧
          (pyLower m.key, v) ∈ opts) ∧
      (∀ kv ∈ opts,
        ∃ m ∈ finditerOpts (((strBytes "a; b=c").dropWhile (fun c => c ≠ 59)).drop 1),
          kv.1 = pyLower m.key ∧
          header_unquote m.value (pyLower m.key = strBytes "filename") = .ok kv.2) :=
  ⟨by decide, (claim6_options_header (strBytes "a; b=c")).2 (by decide)⟩

end Multipart
